import Mathlib

/-!
Verification of the IRC protocol client engine (message codec, stream
framer, timed receive primitives) of `irc-tester-py`.

Decoded text is modelled as `List Char` and raw socket bytes as
`List Nat`, with the per-read `utf-8`/`replace` decode of `User.receive`
modelled by `utf8Decode` where byte boundaries matter.  Each definition
is a direct transcription of the corresponding Python function; comments
name the source.
-/

namespace IrcTester

/-- Python whitespace for `str.split()` / `str.strip()` (ASCII part). -/
def isPySpace (c : Char) : Bool :=
  c = ' ' || c = '\t' || c = '\n' || c = '\r' || c = '\x0b' || c = '\x0c'

/-- Worker for `pySplit`: `acc` holds the characters of the current token,
reversed. -/
def pySplitAux : List Char → List Char → List (List Char)
  | [], acc => if acc = [] then [] else [acc.reverse]
  | c :: cs, acc =>
    if isPySpace c then
      if acc = [] then pySplitAux cs []
      else acc.reverse :: pySplitAux cs []
    else pySplitAux cs (c :: acc)

/-- Python `str.split()` with no separator: split on runs of whitespace,
discarding empty tokens. -/
def pySplit (l : List Char) : List (List Char) :=
  pySplitAux l []

/-- Python `str.strip()`: drop leading and trailing whitespace. -/
def pyStrip (l : List Char) : List Char :=
  ((l.dropWhile isPySpace).reverse.dropWhile isPySpace).reverse

/-- Python `str.upper()` (ASCII letters; IRC commands are ASCII). -/
def upper (l : List Char) : List Char :=
  l.map Char.toUpper

/-- Python `s.split(ch, 1)`: split at the first occurrence of `ch`.
`none` when `ch` does not occur (Python then keeps the whole string). -/
def splitOnce (ch : Char) : List Char → Option (List Char × List Char)
  | [] => none
  | c :: cs =>
    if c = ch then some ([], cs)
    else
      match splitOnce ch cs with
      | none => none
      | some (l, r) => some (c :: l, r)

/-- Split at the first occurrence of the two-character pattern `a b`
(Python `s.find(pat)` with a two character pattern, plus slicing):
returns (text before the pattern, text after the pattern). -/
def splitFirst2 (a b : Char) : List Char → Option (List Char × List Char)
  | [] => none
  | [_] => none
  | x :: y :: rest =>
    if x = a && y = b then some ([], rest)
    else
      match splitFirst2 a b (y :: rest) with
      | none => none
      | some (l, r) => some (x :: l, r)

/-- `buffer.split("\r\n", 1)` in `User._flush_buffer`. -/
def splitCRLF (l : List Char) : Option (List Char × List Char) :=
  splitFirst2 '\r' '\n' l

/-- `IRCMessage._parse_prefix`: decompose `nick!user@host`.
Returns (nick, user, host). -/
def parsePfx (p : List Char) : List Char × List Char × List Char :=
  match splitOnce '!' p with
  | some (nick, rest) =>
    match splitOnce '@' rest with
    | some (user, host) => (nick, user, host)
    | none => (nick, rest, [])
  | none =>
    match splitOnce '@' p with
    | some (nick, host) => (nick, [], host)
    | none => (p, [], [])

/-- A parsed IRC message (`IRCMessage`).  The field `pfx` models the
Python attribute named after the optional leading source token of a
message (`nick!user@host`); Lean reserves that word. -/
structure Message where
  raw : List Char
  pfx : List Char
  nick : List Char
  user : List Char
  host : List Char
  command : List Char
  params : List (List Char)
deriving DecidableEq, Repr

/-- `IRCMessage.__init__`: stores the fields and decomposes a non-empty
source token via `_parse_prefix`. -/
def Message.make (raw pfx command : List Char) (params : List (List Char)) :
    Message :=
  let nuh := if pfx = [] then ([], [], []) else parsePfx pfx
  { raw := raw, pfx := pfx, nick := nuh.1, user := nuh.2.1, host := nuh.2.2,
    command := command, params := params }

/-- The token list `IRCMessage.parse` builds from the part of the line
after the source token: middle tokens plus the trailing parameter when
a ` :` marker is present, else all whitespace-separated tokens. -/
def bodyTokens (body : List Char) : List (List Char) :=
  match splitFirst2 ' ' ':' body with
  | some (middle, trailing) => pySplit middle ++ [trailing]
  | none => pySplit body

/-- The tail of `IRCMessage.parse`: build the token list, pop the first
token as the command (uppercased). -/
def parseBody (raw pfx body : List Char) : Message :=
  match bodyTokens body with
  | [] => Message.make raw pfx [] []
  | t :: ts => Message.make raw pfx (upper t) ts

/-- `IRCMessage.parse`. -/
def parse (line : List Char) : Message :=
  match line with
  | [] => Message.make [] [] [] []
  | c :: rest =>
    if c = ':' then
      match splitOnce ' ' rest with
      | none => Message.make line rest [] []
      | some pr => parseBody line pr.1 pr.2
    else parseBody (c :: rest) [] (c :: rest)

/-- The part of the line `parse` tokenizes (everything after the source
token, or the whole line when there is none; empty when the line is a
lone source token). -/
def bodyOf (line : List Char) : List Char :=
  match line with
  | [] => []
  | c :: rest =>
    if c = ':' then
      match splitOnce ' ' rest with
      | none => []
      | some pr => pr.2
    else c :: rest

/-- `msg.params[0] if msg.params else ""` in `User._flush_buffer`. -/
def pingToken (m : Message) : List Char :=
  match m.params with
  | [] => []
  | t :: _ => t

/-- The PONG lines `User._flush_buffer` sends for one extracted message:
one `PONG :token` when the command is `PING`, else nothing. -/
def pingPongs (m : Message) : List (List Char) :=
  if m.command = "PING".toList then ["PONG :".toList ++ pingToken m] else []

/-- Worker for `flushBuffer`.  The loop in `User._flush_buffer` removes a
complete CRLF line from the buffer each iteration, so it runs at most
`buf.length` times; `fuel` is that structural bound (see
`flushAux_fuel`).  Returns (parsed messages, lines passed to `send_raw`,
remaining buffer). -/
def flushAux : Nat → List Char → List Message × List (List Char) × List Char
  | 0, buf => ([], [], buf)
  | fuel + 1, buf =>
    (splitCRLF buf).elim ([], [], buf) (fun p =>
      if pyStrip p.1 = [] then flushAux fuel p.2
      else
        (parse (pyStrip p.1) :: (flushAux fuel p.2).1,
         pingPongs (parse (pyStrip p.1)) ++ (flushAux fuel p.2).2.1,
         (flushAux fuel p.2).2.2))

/-- `User._flush_buffer`: extract, strip and parse every complete
CRLF-terminated line in the buffer, answering `PING` with `PONG`;
returns (parsed messages, lines passed to `send_raw`, remaining
buffer). -/
def flushBuffer (buf : List Char) : List Message × List (List Char) × List Char :=
  flushAux buf.length buf

/-- The mutable connection state of a `User`: whether `_socket` is not
`None`, the `_connected` flag, and the `_buffer` tail. -/
structure Conn where
  hasSocket : Bool
  connected : Bool
  buffer : List Char
deriving DecidableEq, Repr

/-- Outcome of the single bounded socket read in `User.receive`:
decoded data (empty = peer close), a `socket.timeout`, or an `OSError`.
Decoding never fails (`errors="replace"`), so data is already text. -/
inductive ReadResult where
  | data (bytes : List Char)
  | timedOut
  | ioError
deriving DecidableEq, Repr

/-- The exception `User.receive` does not catch: `AttributeError` from
`self._socket.settimeout` when `_socket` is `None`. -/
inductive PyErr where
  | attributeError
deriving DecidableEq, Repr

/-- The socket-present path of `User.receive`: flush the buffer and
return buffered messages if any; otherwise perform the one read `r` and
flush again.  Returns (messages, lines passed to `send_raw`, new
state). -/
def receiveC (st : Conn) (r : ReadResult) :
    List Message × List (List Char) × Conn :=
  let A := flushBuffer st.buffer
  if A.1 = [] then
    match r with
    | .timedOut => ([], A.2.1, { st with buffer := A.2.2 })
    | .ioError => ([], A.2.1, { st with buffer := A.2.2, connected := false })
    | .data bytes =>
      if bytes = [] then
        ([], A.2.1, { st with buffer := A.2.2, connected := false })
      else
        let B := flushBuffer (A.2.2 ++ bytes)
        (B.1, A.2.1 ++ B.2.1, { st with buffer := B.2.2 })
  else (A.1, A.2.1, { st with buffer := A.2.2 })

/-- `User.receive`: as `receiveC`, but `self._socket.settimeout` raises
`AttributeError` when no socket is held and no buffered message lets the
method return early. -/
def receive (st : Conn) (r : ReadResult) :
    Except PyErr (List Message × List (List Char) × Conn) :=
  let A := flushBuffer st.buffer
  if A.1 = [] then
    if st.hasSocket then .ok (receiveC st r) else .error .attributeError
  else .ok (A.1, A.2.1, { st with buffer := A.2.2 })

/-- The character-level core of fragment processing: one append-and-
extract cycle per already-decoded text fragment against an initial
buffer, the buffer carrying the unterminated tail between reads.
`processFragsB` supplies the per-read decode `User.receive` performs. -/
def processFrags (buf : List Char) :
    List (List Char) → List Message × List (List Char) × List Char
  | [] => ([], [], buf)
  | f :: fs =>
    let A := flushBuffer (buf ++ f)
    let B := processFrags A.2.2 fs
    (A.1 ++ B.1, A.2.1 ++ B.2.1, B.2.2)

/-- The replacement character U+FFFD produced by `errors="replace"`. -/
def repChar : Char := '�'

/-- Is `b` a UTF-8 continuation byte (`0x80`-`0xBF`)? -/
def isCont (b : Nat) : Bool := 0x80 ≤ b && b ≤ 0xBF

/-- Worker for `utf8Decode`.  Each step consumes at least one byte, so
the byte count bounds the number of steps; `fuel` is that structural
bound (`utf8Decode` passes the length). -/
def utf8DecodeAux : Nat → List Nat → List Char
  | _, [] => []
  | 0, _ :: _ => []
  | fuel + 1, b :: bs =>
    if b ≤ 0x7F then Char.ofNat b :: utf8DecodeAux fuel bs
    else if 0xC2 ≤ b && b ≤ 0xDF then
      match bs with
      | b2 :: bs2 =>
        if isCont b2 then
          Char.ofNat ((b - 0xC0) * 0x40 + (b2 - 0x80)) :: utf8DecodeAux fuel bs2
        else repChar :: utf8DecodeAux fuel (b2 :: bs2)
      | [] => [repChar]
    else if 0xE0 ≤ b && b ≤ 0xEF then
      match bs with
      | b2 :: bs2 =>
        if (if b = 0xE0 then 0xA0 else 0x80) ≤ b2 &&
            b2 ≤ (if b = 0xED then 0x9F else 0xBF) then
          match bs2 with
          | b3 :: bs3 =>
            if isCont b3 then
              Char.ofNat ((b - 0xE0) * 0x1000 + (b2 - 0x80) * 0x40 +
                (b3 - 0x80)) :: utf8DecodeAux fuel bs3
            else repChar :: utf8DecodeAux fuel (b3 :: bs3)
          | [] => [repChar]
        else repChar :: utf8DecodeAux fuel (b2 :: bs2)
      | [] => [repChar]
    else if 0xF0 ≤ b && b ≤ 0xF4 then
      match bs with
      | b2 :: bs2 =>
        if (if b = 0xF0 then 0x90 else 0x80) ≤ b2 &&
            b2 ≤ (if b = 0xF4 then 0x8F else 0xBF) then
          match bs2 with
          | b3 :: bs3 =>
            if isCont b3 then
              match bs3 with
              | b4 :: bs4 =>
                if isCont b4 then
                  Char.ofNat ((b - 0xF0) * 0x40000 + (b2 - 0x80) * 0x1000 +
                    (b3 - 0x80) * 0x40 + (b4 - 0x80)) :: utf8DecodeAux fuel bs4
                else repChar :: utf8DecodeAux fuel (b4 :: bs4)
              | [] => [repChar]
            else repChar :: utf8DecodeAux fuel (b3 :: bs3)
          | [] => [repChar]
        else repChar :: utf8DecodeAux fuel (b2 :: bs2)
      | [] => [repChar]
    else repChar :: utf8DecodeAux fuel bs

/-- Python `bytes.decode("utf-8", errors="replace")` as `User.receive`
applies it to each read: CPython replaces every maximal subpart of an
ill-formed sequence by one U+FFFD (so a lone leading byte or a
truncated sequence at the end of a read becomes a single U+FFFD, and an
invalid or out-of-range byte is replaced on its own).  The second-byte
ranges exclude overlong forms, surrogates and code points above
U+10FFFF, as CPython does. -/
def utf8Decode (l : List Nat) : List Char :=
  utf8DecodeAux l.length l

/-- One `receive` per socket read against an initial buffer: each read
delivers raw bytes which `User.receive` decodes on their own
(`data.decode("utf-8", errors="replace")`), appends to the buffer and
extracts.  This is the byte-stream fragment model of claim C1. -/
def processFragsB (buf : List Char) :
    List (List Nat) → List Message × List (List Char) × List Char
  | [] => ([], [], buf)
  | f :: fs =>
    let A := flushBuffer (buf ++ utf8Decode f)
    let B := processFragsB A.2.2 fs
    (A.1 ++ B.1, A.2.1 ++ B.2.1, B.2.2)

/-- Run a sequence of reads through `receiveC`, concatenating all
batches in arrival order (no deadline, no early exit). -/
def runReads (st : Conn) : List ReadResult → List Message × Conn
  | [] => ([], st)
  | r :: rs =>
    let A := receiveC st r
    let B := runReads A.2.2 rs
    (A.1 ++ B.1, B.2)

/-- `User.collect`: loop until the deadline; each iteration reads the
clock (`clock` lists the successive `time.time()` values) and, while
time remains, performs one `receive` (`reads` lists the successive read
outcomes).  An exhausted oracle also ends the loop. -/
def collect (st : Conn) (endTime : Int) :
    List Int → List ReadResult → List Message × Conn
  | t :: clock, r :: reads =>
    if endTime - t ≤ 0 then ([], st)
    else
      let A := receiveC st r
      let B := collect A.2.2 endTime clock reads
      (A.1 ++ B.1, B.2)
  | _, _ => ([], st)

/-- The inner `for msg in batch` loop of `User.receive_until`: append
messages until one with a command in `cmds` appears; that one is
appended and returned as the match, the rest of the batch is abandoned. -/
def scanBatch (cmds : List (List Char)) :
    List Message → List Message × Option Message
  | [] => ([], none)
  | m :: ms =>
    if m.command ∈ cmds then ([m], some m)
    else
      match scanBatch cmds ms with
      | (tk, res) => (m :: tk, res)

/-- `User.receive_until`: loop until the deadline, accumulating every
appended message, returning at the first message whose command is in
`cmds`.  Oracles as in `collect`. -/
def receiveUntil (cmds : List (List Char)) (st : Conn) (endTime : Int) :
    List Int → List ReadResult → List Message × Option Message × Conn
  | t :: clock, r :: reads =>
    if endTime - t ≤ 0 then ([], none, st)
    else
      let A := receiveC st r
      match scanBatch cmds A.1 with
      | (taken, some m) => (taken, some m, A.2.2)
      | (taken, none) =>
        let B := receiveUntil cmds A.2.2 endTime clock reads
        (taken ++ B.1, B.2.1, B.2.2)
  | _, _ => ([], none, st)

/-- `User.privmsg`: the line `f"PRIVMSG {target} :{message}"` handed to
`send_raw`. -/
def privmsgLine (target text : List Char) : List Char :=
  "PRIVMSG ".toList ++ target ++ " :".toList ++ text

/-- Modelled from the spec: the generic `encode(verb, args…)` rule (the
repository only has per-verb builders such as `privmsg`): verb and args
joined by single spaces; a final argument carrying embedded spaces is
prefixed with `:`.  `encodeArgs` renders the argument list. -/
def encodeArgs : List (List Char) → List Char
  | [] => []
  | a :: rest =>
    match rest with
    | [] => ' ' :: (if ' ' ∈ a then ':' :: a else a)
    | _ :: _ => ' ' :: a ++ encodeArgs rest

/-- Modelled from the spec: `encode(verb, args…)`, see `encodeArgs`. -/
def encode (verb : List Char) (args : List (List Char)) : List Char :=
  verb ++ encodeArgs args

/-- The space-joined rendering of a list of middle arguments, each with
its separating space; the shape `encode` produces before the final
argument. -/
def encodeMid : List (List Char) → List Char
  | [] => []
  | a :: rest => ' ' :: a ++ encodeMid rest

/-- A well-formed wire token: non-empty, no whitespace, and not starting
with `:` (so it can neither be mistaken for a trailing marker nor
swallowed by tokenization). -/
def goodTok (t : List Char) : Prop :=
  t ≠ [] ∧ (∀ c ∈ t, isPySpace c = false) ∧ t.head? ≠ some ':'

instance (t : List Char) : Decidable (goodTok t) := by
  unfold goodTok; infer_instance

/-! ### Lemmas about the splitting primitives -/

theorem splitFirst2_some_length {a b : Char} :
    ∀ {l x y : List Char}, splitFirst2 a b l = some (x, y) →
      y.length < l.length := by
  intro l
  induction l with
  | nil => intro x y h; simp [splitFirst2] at h
  | cons c cs ih =>
    intro x y h
    cases cs with
    | nil => simp [splitFirst2] at h
    | cons d ds =>
      rw [splitFirst2] at h
      by_cases hcd : (c = a && d = b) = true
      · rw [if_pos hcd] at h
        obtain ⟨h1, h2⟩ := Prod.mk.injEq .. ▸ Option.some.inj h
        subst h2
        simp only [List.length_cons]
        omega
      · rw [if_neg hcd] at h
        cases hr : splitFirst2 a b (d :: ds) with
        | none => rw [hr] at h; exact absurd h (by simp)
        | some p =>
          rw [hr] at h
          obtain ⟨h1, h2⟩ := Prod.mk.injEq .. ▸ Option.some.inj h
          subst h2
          have := @ih p.1 p.2 (by rw [hr])
          simp only [List.length_cons] at this ⊢
          omega

theorem splitFirst2_append_some {a b : Char} :
    ∀ {l x y : List Char} (m : List Char), splitFirst2 a b l = some (x, y) →
      splitFirst2 a b (l ++ m) = some (x, y ++ m) := by
  intro l
  induction l with
  | nil => intro x y m h; simp [splitFirst2] at h
  | cons c cs ih =>
    intro x y m h
    cases cs with
    | nil => simp [splitFirst2] at h
    | cons d ds =>
      rw [splitFirst2] at h
      rw [List.cons_append, List.cons_append, splitFirst2]
      by_cases hcd : (c = a && d = b) = true
      · rw [if_pos hcd] at h ⊢
        obtain ⟨rfl, rfl⟩ := Prod.mk.injEq .. ▸ Option.some.inj h
        simp
      · rw [if_neg hcd] at h ⊢
        cases hr : splitFirst2 a b (d :: ds) with
        | none => rw [hr] at h; exact absurd h (by simp)
        | some p =>
          rw [hr] at h
          obtain ⟨rfl, rfl⟩ := Prod.mk.injEq .. ▸ Option.some.inj h
          have := @ih p.1 p.2 m (by rw [hr])
          rw [← List.cons_append, this]

theorem splitFirst2_append_left {a b : Char} :
    ∀ {l : List Char} (m : List Char), (∀ c ∈ l, ¬ c = a) →
      splitFirst2 a b (l ++ m) =
        Option.map (fun p => (l ++ p.1, p.2)) (splitFirst2 a b m) := by
  intro l
  induction l with
  | nil =>
    intro m _
    cases hm : splitFirst2 a b m with
    | none => simp [hm]
    | some p => simp [hm]
  | cons c cs ih =>
    intro m hl
    have hc : ¬ c = a := hl c (by simp)
    have hcs : ∀ x ∈ cs, ¬ x = a := fun x hx => hl x (by simp [hx])
    rw [List.cons_append]
    cases hcm : cs ++ m with
    | nil =>
      have hcs0 : cs = [] := by
        cases cs with
        | nil => rfl
        | cons u us => simp at hcm
      have hm0 : m = [] := by
        subst hcs0; simpa using hcm
      subst hcs0 hm0
      simp [splitFirst2]
    | cons d ds =>
      rw [splitFirst2]
      have hne : (c = a && d = b) = false := by
        simp [hc]
      rw [hne]
      simp only [Bool.false_eq_true, if_false]
      rw [← hcm, ih m hcs]
      cases hm : splitFirst2 a b m with
      | none => simp
      | some p => simp

theorem splitOnce_append_left {ch : Char} :
    ∀ {l : List Char} (m : List Char), ch ∉ l →
      splitOnce ch (l ++ m) =
        Option.map (fun p => (l ++ p.1, p.2)) (splitOnce ch m) := by
  intro l
  induction l with
  | nil =>
    intro m _
    cases hm : splitOnce ch m with
    | none => simp [hm]
    | some p => simp [hm]
  | cons c cs ih =>
    intro m hl
    have hc : ¬ c = ch := fun h => hl (by simp [h])
    have hcs : ch ∉ cs := fun h => hl (by simp [h])
    rw [List.cons_append, splitOnce, if_neg hc, ih m hcs]
    cases hm : splitOnce ch m with
    | none => simp [splitOnce, if_neg hc]
    | some p => simp [splitOnce, if_neg hc]

theorem splitOnce_not_mem {ch : Char} {l : List Char} (h : ch ∉ l) :
    splitOnce ch l = none := by
  have := @splitOnce_append_left ch l [] h
  simpa [splitOnce] using this

theorem splitOnce_sep {ch : Char} {l : List Char} (r : List Char)
    (h : ch ∉ l) : splitOnce ch (l ++ ch :: r) = some (l, r) := by
  rw [splitOnce_append_left (ch :: r) h]
  simp [splitOnce]

/-! ### Lemmas about tokenization -/

theorem pySplitAux_token {t : List Char} (ht : ∀ c ∈ t, isPySpace c = false) :
    ∀ (cs acc : List Char), pySplitAux (t ++ cs) acc = pySplitAux cs (t.reverse ++ acc) := by
  induction t with
  | nil => intro cs acc; simp
  | cons c ts ih =>
    intro cs acc
    have hc : isPySpace c = false := ht c (by simp)
    have hts : ∀ x ∈ ts, isPySpace x = false := fun x hx => ht x (by simp [hx])
    rw [List.cons_append, pySplitAux, hc]
    simp only [Bool.false_eq_true, if_false]
    rw [ih hts cs (c :: acc)]
    simp

theorem pySplit_token_sep {t : List Char} (h0 : t ≠ [])
    (ht : ∀ c ∈ t, isPySpace c = false) (r : List Char) :
    pySplit (t ++ ' ' :: r) = t :: pySplit r := by
  rw [pySplit, pySplitAux_token ht (' ' :: r) [], pySplitAux]
  have hsp : isPySpace ' ' = true := rfl
  rw [hsp]
  have hne : ¬ (t.reverse ++ [] = []) := by simp [h0]
  simp only [if_true, List.append_nil]
  rw [if_neg (by simpa using hne)]
  simp [pySplit]

theorem pySplit_token {t : List Char} (h0 : t ≠ [])
    (ht : ∀ c ∈ t, isPySpace c = false) : pySplit t = [t] := by
  have := pySplitAux_token ht [] []
  rw [List.append_nil] at this
  rw [pySplit, this, pySplitAux]
  rw [if_neg (by simpa using h0)]
  simp

/-! ### Simple facts about `Message.make` and `parseBody` -/

@[simp] theorem make_raw {raw pfx c : List Char} {ps : List (List Char)} :
    (Message.make raw pfx c ps).raw = raw := rfl

@[simp] theorem make_command {raw pfx c : List Char} {ps : List (List Char)} :
    (Message.make raw pfx c ps).command = c := rfl

@[simp] theorem make_params {raw pfx c : List Char} {ps : List (List Char)} :
    (Message.make raw pfx c ps).params = ps := rfl

theorem parseBody_raw {raw pfx body : List Char} :
    (parseBody raw pfx body).raw = raw := by
  rw [parseBody]
  cases bodyTokens body <;> simp

theorem parse_raw (line : List Char) : (parse line).raw = line := by
  cases line with
  | nil => rfl
  | cons c rest =>
    rw [parse]
    by_cases hc : c = ':'
    · rw [if_pos hc]
      cases splitOnce ' ' rest
      · simp
      · exact parseBody_raw
    · rw [if_neg hc]
      exact parseBody_raw

/-- `parse`'s command and params come from the token list of the body:
command is the uppercased head, params the tail. -/
theorem parse_tokens (line : List Char) :
    (bodyTokens (bodyOf line) = [] ∧ (parse line).command = [] ∧
      (parse line).params = []) ∨
    (∃ t ts, bodyTokens (bodyOf line) = t :: ts ∧
      (parse line).command = upper t ∧ (parse line).params = ts) := by
  cases line with
  | nil =>
    left
    refine ⟨rfl, rfl, rfl⟩
  | cons c rest =>
    by_cases hc : c = ':'
    · cases hs : splitOnce ' ' rest with
      | none =>
        left
        refine ⟨?_, ?_, ?_⟩ <;>
          simp [parse, bodyOf, hc, hs, bodyTokens, splitFirst2, pySplit,
            pySplitAux]
      | some pr =>
        cases h : bodyTokens pr.2 with
        | nil =>
          left
          refine ⟨?_, ?_, ?_⟩ <;> simp [parse, bodyOf, parseBody, hc, hs, h]
        | cons t ts =>
          right
          refine ⟨t, ts, ?_, ?_, ?_⟩ <;>
            simp [parse, bodyOf, parseBody, hc, hs, h]
    · cases h : bodyTokens (c :: rest) with
      | nil =>
        left
        refine ⟨?_, ?_, ?_⟩ <;> simp [parse, bodyOf, parseBody, hc, h]
      | cons t ts =>
        right
        refine ⟨t, ts, ?_, ?_, ?_⟩ <;> simp [parse, bodyOf, parseBody, hc, h]

/-! ### ASCII case facts -/

theorem uint32_le_iff {a b : UInt32} : a ≤ b ↔ a.toNat ≤ b.toNat := by
  rw [UInt32.le_def, BitVec.le_def]
  rfl

theorem char_toNat_ofNat {n : Nat} (h : n < 0xd800) :
    (Char.ofNat n).toNat = n := by
  rw [Char.ofNat, dif_pos (Or.inl h)]
  simp [Char.ofNatAux, Char.toNat, UInt32.toNat]

/-- Uppercasing (as `str.upper` does on ASCII) never yields a lowercase
letter. -/
theorem toUpper_isLower_false (c : Char) : (Char.toUpper c).isLower = false := by
  rw [Char.toUpper]
  split
  · next h =>
    have hv : (Char.ofNat (c.toNat - 32)).toNat = c.toNat - 32 :=
      char_toNat_ofNat (by omega)
    rw [Char.isLower]
    have hlt : ¬ ((97 : UInt32) ≤ (Char.ofNat (c.toNat - 32)).val) := by
      rw [uint32_le_iff]
      have h97 : (97 : UInt32).toNat = 97 := rfl
      rw [h97]
      show ¬ 97 ≤ (Char.ofNat (c.toNat - 32)).toNat
      rw [hv]
      omega
    simp [hlt]
  · next h =>
    rw [Char.isLower]
    rcases Nat.lt_or_ge c.toNat 97 with hlt | hge
    · have hn : ¬ ((97 : UInt32) ≤ c.val) := by
        rw [uint32_le_iff]
        exact Nat.not_le.mpr hlt
      simp [hn]
    · have h122 : ¬ (c.toNat ≤ 122) := by
        by_contra hc
        exact h ⟨hge, hc⟩
      have hn : ¬ (c.val ≤ (122 : UInt32)) := by
        rw [uint32_le_iff]
        exact h122
      simp [hn]

/-! ### Parsing encoded lines -/

theorem splitFirst2_space_cons {c : Char} (hc : ¬ c = ':') (rest : List Char) :
    splitFirst2 ' ' ':' (' ' :: c :: rest) =
      Option.map (fun p => (' ' :: p.1, p.2)) (splitFirst2 ' ' ':' (c :: rest)) := by
  rw [splitFirst2]
  have hcond : ((' ' = ' ' : Bool)) = true := by decide
  simp only [decide_eq_true_eq, hc, decide_False, Bool.and_false, decide_True,
    Bool.true_and, decide_eq_false_iff_not, not_false_eq_true, if_neg,
    Bool.false_eq_true, if_false]
  cases h : splitFirst2 ' ' ':' (c :: rest) <;> simp

theorem splitFirst2_marker (tail : List Char) :
    splitFirst2 ' ' ':' (' ' :: ':' :: tail) = some ([], tail) := by
  rw [splitFirst2]
  simp

theorem goodTok_no_space {t : List Char} (h : goodTok t) :
    ∀ x ∈ t, ¬ x = ' ' := by
  intro x hx he
  subst he
  have := h.2.1 ' ' hx
  simp [isPySpace] at this

theorem splitFirst2_encodeMid_marker :
    ∀ (mids : List (List Char)), (∀ a ∈ mids, goodTok a) → ∀ tail,
      splitFirst2 ' ' ':' (encodeMid mids ++ (' ' :: ':' :: tail)) =
        some (encodeMid mids, tail) := by
  intro mids
  induction mids with
  | nil =>
    intro _ tail
    simpa [encodeMid] using splitFirst2_marker tail
  | cons m ms ih =>
    intro hg tail
    have hm := hg m (by simp)
    have hms : ∀ a ∈ ms, goodTok a := fun a ha => hg a (by simp [ha])
    cases m with
    | nil => exact absurd rfl hm.1
    | cons c cs =>
      have hc : ¬ c = ':' := by
        have := hm.2.2
        simpa using this
      have hnosp : ∀ x ∈ (c :: cs), ¬ x = ' ' := goodTok_no_space hm
      show splitFirst2 ' ' ':'
          ((' ' :: ((c :: cs) ++ encodeMid ms)) ++ (' ' :: ':' :: tail)) =
        some (' ' :: ((c :: cs) ++ encodeMid ms), tail)
      rw [List.cons_append, List.append_assoc, List.cons_append,
        splitFirst2_space_cons hc, ← List.cons_append,
        splitFirst2_append_left _ hnosp, ih hms tail]
      simp

theorem splitFirst2_encodeMid_none :
    ∀ (toks : List (List Char)), (∀ a ∈ toks, goodTok a) →
      splitFirst2 ' ' ':' (encodeMid toks) = none := by
  intro toks
  induction toks with
  | nil => intro _; rfl
  | cons m ms ih =>
    intro hg
    have hm := hg m (by simp)
    have hms : ∀ a ∈ ms, goodTok a := fun a ha => hg a (by simp [ha])
    cases m with
    | nil => exact absurd rfl hm.1
    | cons c cs =>
      have hc : ¬ c = ':' := by
        have := hm.2.2
        simpa using this
      have hnosp : ∀ x ∈ (c :: cs), ¬ x = ' ' := goodTok_no_space hm
      show splitFirst2 ' ' ':' (' ' :: ((c :: cs) ++ encodeMid ms)) = none
      rw [List.cons_append, splitFirst2_space_cons hc, ← List.cons_append,
        splitFirst2_append_left _ hnosp, ih hms]
      rfl

theorem pySplit_encodeMid :
    ∀ (mids : List (List Char)) (v : List Char), goodTok v →
      (∀ a ∈ mids, goodTok a) → pySplit (v ++ encodeMid mids) = v :: mids := by
  intro mids
  induction mids with
  | nil =>
    intro v hv _
    rw [encodeMid, List.append_nil]
    exact pySplit_token hv.1 hv.2.1
  | cons m ms ih =>
    intro v hv hg
    have hm := hg m (by simp)
    have hms : ∀ a ∈ ms, goodTok a := fun a ha => hg a (by simp [ha])
    show pySplit (v ++ (' ' :: (m ++ encodeMid ms))) = v :: m :: ms
    rw [pySplit_token_sep hv.1 hv.2.1 (m ++ encodeMid ms), ih m hm hms]

theorem parse_cons_ne {c : Char} (rest : List Char) (hc : ¬ c = ':') :
    parse (c :: rest) = parseBody (c :: rest) [] (c :: rest) := by
  rw [parse, if_neg hc]

theorem parseBody_eq (raw pfx body : List Char) {t : List Char}
    {ts : List (List Char)} (h : bodyTokens body = t :: ts) :
    parseBody raw pfx body = Message.make raw pfx (upper t) ts := by
  simp only [parseBody, h]

/-- Parsing `verb middles :trailing` (every middle a well-formed token)
recovers the uppercased verb and the middles plus the trailing text. -/
theorem parse_encoded_trailing (v : List Char) (mids : List (List Char))
    (tail : List Char) (hv : goodTok v) (hm : ∀ a ∈ mids, goodTok a) :
    parse (v ++ encodeMid mids ++ ' ' :: ':' :: tail) =
      Message.make (v ++ encodeMid mids ++ ' ' :: ':' :: tail) []
        (upper v) (mids ++ [tail]) := by
  cases v with
  | nil => exact absurd rfl hv.1
  | cons c vs =>
    have hc : ¬ c = ':' := by
      have := hv.2.2
      simpa using this
    have hnosp : ∀ x ∈ (c :: vs), ¬ x = ' ' := goodTok_no_space hv
    have hsf : splitFirst2 ' ' ':'
        (((c :: vs) ++ encodeMid mids) ++ (' ' :: ':' :: tail)) =
        some ((c :: vs) ++ encodeMid mids, tail) := by
      rw [List.append_assoc, splitFirst2_append_left _ hnosp,
        splitFirst2_encodeMid_marker mids hm tail]
      rfl
    have hbt : bodyTokens (((c :: vs) ++ encodeMid mids) ++ (' ' :: ':' :: tail)) =
        (c :: vs) :: (mids ++ [tail]) := by
      rw [bodyTokens, hsf]
      show pySplit ((c :: vs) ++ encodeMid mids) ++ [tail] =
        (c :: vs) :: (mids ++ [tail])
      rw [pySplit_encodeMid mids (c :: vs) hv hm]
      rfl
    have hline : ((c :: vs) ++ encodeMid mids) ++ (' ' :: ':' :: tail) =
        c :: ((vs ++ encodeMid mids) ++ (' ' :: ':' :: tail)) := by simp
    rw [hline, parse_cons_ne _ hc, ← hline]
    exact parseBody_eq _ _ _ hbt

/-- Parsing `verb tokens` (all well-formed, no trailing marker) recovers
the uppercased verb and the tokens. -/
theorem parse_encoded_plain (v : List Char) (toks : List (List Char))
    (hv : goodTok v) (hm : ∀ a ∈ toks, goodTok a) :
    parse (v ++ encodeMid toks) =
      Message.make (v ++ encodeMid toks) [] (upper v) toks := by
  cases v with
  | nil => exact absurd rfl hv.1
  | cons c vs =>
    have hc : ¬ c = ':' := by
      have := hv.2.2
      simpa using this
    have hnosp : ∀ x ∈ (c :: vs), ¬ x = ' ' := goodTok_no_space hv
    have hsf : splitFirst2 ' ' ':' ((c :: vs) ++ encodeMid toks) = none := by
      rw [splitFirst2_append_left _ hnosp, splitFirst2_encodeMid_none toks hm]
      rfl
    have hbt : bodyTokens ((c :: vs) ++ encodeMid toks) =
        (c :: vs) :: toks := by
      rw [bodyTokens, hsf, pySplit_encodeMid toks (c :: vs) hv hm]
    have hline : (c :: vs) ++ encodeMid toks = c :: (vs ++ encodeMid toks) := by
      simp
    rw [hline, parse_cons_ne _ hc, ← hline]
    exact parseBody_eq _ _ _ hbt

theorem encodeArgs_eq :
    ∀ (mids : List (List Char)) (last : List Char),
      encodeArgs (mids ++ [last]) =
        encodeMid mids ++ (' ' :: (if ' ' ∈ last then ':' :: last else last)) := by
  intro mids
  induction mids with
  | nil =>
    intro last
    simp [encodeArgs, encodeMid]
  | cons m ms ih =>
    intro last
    cases hms : ms ++ [last] with
    | nil => exact absurd hms (by simp)
    | cons d ds =>
      show encodeArgs (m :: (ms ++ [last])) = _
      rw [hms]
      show ' ' :: m ++ encodeArgs (d :: ds) = _
      rw [← hms, ih last]
      simp [encodeMid]

theorem encodeMid_append :
    ∀ (xs : List (List Char)) (y : List Char),
      encodeMid (xs ++ [y]) = encodeMid xs ++ (' ' :: y) := by
  intro xs
  induction xs with
  | nil => intro y; simp [encodeMid]
  | cons m ms ih =>
    intro y
    show encodeMid (m :: (ms ++ [y])) = _
    rw [encodeMid, ih y]
    simp [encodeMid]

theorem privmsgLine_shape (target text : List Char) :
    privmsgLine target text =
      ("PRIVMSG".toList ++ encodeMid [target]) ++ (' ' :: ':' :: text) := by
  have h1 : "PRIVMSG ".toList = "PRIVMSG".toList ++ [' '] := by decide
  have h2 : " :".toList = [' ', ':'] := by decide
  rw [privmsgLine, h1, h2]
  simp [encodeMid]

/-! ### Claim C6 -/

/-- Claim C6 as stated is false: the target `:x` is non-empty and
space-free, yet `PRIVMSG :x :hi` does not parse back to params
`[":x", "hi"]` (the ` :` after `PRIVMSG` becomes the trailing marker). -/
theorem c6_counterexample :
    (parse (privmsgLine (":x".toList) ("hi".toList))).params ≠
      [":x".toList, "hi".toList] := by
  decide

/-- Claim C6, amended: the encode/parse round trip holds for well-formed
arguments: verb and middle arguments non-empty, whitespace-free and not
starting with `:`, and the final argument either containing a space (it
is then sent as a `:`-trailing) or itself such a token; in particular
`privmsg(target, text)` round-trips for any text when the target is
such a token. -/
theorem encode_parse_roundTrip :
    (∀ v mids last, goodTok v → (∀ a ∈ mids, goodTok a) →
      (' ' ∈ last ∨ goodTok last) →
      (parse (encode v (mids ++ [last]))).command = upper v ∧
      (parse (encode v (mids ++ [last]))).params = mids ++ [last]) ∧
    (∀ target text, goodTok target →
      (parse (privmsgLine target text)).command = "PRIVMSG".toList ∧
      (parse (privmsgLine target text)).params = [target, text]) := by
  constructor
  · intro v mids last hv hm hlast
    rw [encode, encodeArgs_eq]
    rcases hlast with hsp | hgood
    · rw [if_pos hsp, ← List.append_assoc,
        parse_encoded_trailing v mids last hv hm]
      exact ⟨by simp, by simp⟩
    · have hns : ¬ (' ' ∈ last) := by
        intro hin
        have := hgood.2.1 ' ' hin
        simp [isPySpace] at this
      rw [if_neg hns, show encodeMid mids ++ ' ' :: last =
          encodeMid (mids ++ [last]) from (encodeMid_append mids last).symm,
        parse_encoded_plain v (mids ++ [last]) hv ?hall]
      case hall =>
        intro a ha
        rcases List.mem_append.mp ha with h1 | h1
        · exact hm a h1
        · rw [List.mem_singleton.mp h1]
          exact hgood
      exact ⟨by simp, by simp⟩
  · intro target text ht
    rw [privmsgLine_shape,
      parse_encoded_trailing ("PRIVMSG".toList) [target] text (by decide)
        (by simpa using ht)]
    refine ⟨?_, by simp⟩
    simp only [make_command]
    decide

/-- Witness for `encode_parse_roundTrip` at concrete inputs. -/
theorem c6_witness :
    ((parse (encode ("join".toList) (["#chan".toList] ++ ["the key".toList]))).command =
        upper ("join".toList) ∧
     (parse (encode ("join".toList) (["#chan".toList] ++ ["the key".toList]))).params =
        ["#chan".toList] ++ ["the key".toList]) ∧
    ((parse (privmsgLine ("#test".toList) ("Hello world".toList))).command =
        "PRIVMSG".toList ∧
     (parse (privmsgLine ("#test".toList) ("Hello world".toList))).params =
        [("#test".toList), ("Hello world".toList)]) :=
  ⟨encode_parse_roundTrip.1 ("join".toList) [("#chan".toList)] ("the key".toList)
      (by decide) (by decide) (Or.inl (by decide)),
   encode_parse_roundTrip.2 ("#test".toList) ("Hello world".toList) (by decide)⟩

/-! ### Claim C7 -/

/-- Claim C7: `parse` is total: for every input it returns a Message (it
always records the raw line it was given), and the empty input yields
the Message with every field empty and command `""`. -/
theorem parse_total :
    (∀ line, (parse line).raw = line) ∧
    parse [] = { raw := [], pfx := [], nick := [], user := [], host := [],
                 command := [], params := [] } :=
  ⟨parse_raw, by decide⟩

/-! ### Claim C8 -/

/-- Claim C8 as stated is false: on the line `PING PING` the parsed
command token also occurs in the params list. -/
theorem c8_counterexample :
    (parse ("PING PING".toList)).command ∈ (parse ("PING PING".toList)).params ∧
    (parse ("PING PING".toList)).command = "PING".toList := by
  decide

/-- Claim C8, amended: the command of a parsed message never contains a
lowercase letter; and the command token itself (the first token of the
body) is removed from params, so params cannot contain the command
unless the uppercased first token also occurs among the later tokens. -/
theorem command_upper_params_tail :
    (∀ line, ∀ c ∈ (parse line).command, c.isLower = false) ∧
    (∀ line t ts, bodyTokens (bodyOf line) = t :: ts → upper t ∉ ts →
      (parse line).command ∉ (parse line).params) := by
  constructor
  · intro line c hc
    rcases parse_tokens line with ⟨_, hcmd, _⟩ | ⟨t, ts, _, hcmd, _⟩
    · rw [hcmd] at hc
      simp at hc
    · rw [hcmd, upper] at hc
      obtain ⟨d, _, rfl⟩ := List.mem_map.mp hc
      exact toUpper_isLower_false d
  · intro line t ts hts hnot
    rcases parse_tokens line with ⟨h0, _, _⟩ | ⟨t', ts', h0, hcmd, hps⟩
    · rw [h0] at hts
      cases hts
    · rw [h0] at hts
      injection hts with h1 h2
      subst h1
      subst h2
      rw [hcmd, hps]
      exact hnot

/-- Witness for `command_upper_params_tail` at concrete inputs. -/
theorem c8_witness :
    ('F'.isLower = false) ∧
    (parse ("FOO a".toList)).command ∉ (parse ("FOO a".toList)).params :=
  ⟨command_upper_params_tail.1 ("foo".toList) 'F' (by decide),
   command_upper_params_tail.2 ("FOO a".toList) ("FOO".toList) [("a".toList)]
     (by decide) (by decide)⟩

/-! ### Claim C9 -/

/-- Claim C9: decomposition of the source token: with a `!`, nick is the
text before it and the remainder splits at `@` into user and host, else
it is all user; with `@` but no `!`, nick and host; otherwise all nick.
Concretely, `:alice!auser@ahost PRIVMSG #test :Hello world` parses as
claimed. -/
theorem nick_user_host_decomposition :
    (∀ n u h : List Char, '!' ∉ n → '@' ∉ u →
      parsePfx (n ++ '!' :: (u ++ '@' :: h)) = (n, u, h)) ∧
    (∀ n rest : List Char, '!' ∉ n → '@' ∉ rest →
      parsePfx (n ++ '!' :: rest) = (n, rest, [])) ∧
    (∀ n h : List Char, '!' ∉ n → '@' ∉ n → '!' ∉ h →
      parsePfx (n ++ '@' :: h) = (n, [], h)) ∧
    (∀ p : List Char, '!' ∉ p → '@' ∉ p → parsePfx p = (p, [], [])) ∧
    ((parse (":alice!auser@ahost PRIVMSG #test :Hello world".toList)).nick =
        "alice".toList ∧
     (parse (":alice!auser@ahost PRIVMSG #test :Hello world".toList)).user =
        "auser".toList ∧
     (parse (":alice!auser@ahost PRIVMSG #test :Hello world".toList)).host =
        "ahost".toList ∧
     (parse (":alice!auser@ahost PRIVMSG #test :Hello world".toList)).command =
        "PRIVMSG".toList ∧
     (parse (":alice!auser@ahost PRIVMSG #test :Hello world".toList)).params =
        ["#test".toList, "Hello world".toList]) := by
  refine ⟨?_, ?_, ?_, ?_, by decide⟩
  · intro n u h hn hu
    have h1 : splitOnce '!' (n ++ '!' :: (u ++ '@' :: h)) =
        some (n, u ++ '@' :: h) := splitOnce_sep _ hn
    have h2 : splitOnce '@' (u ++ '@' :: h) = some (u, h) :=
      splitOnce_sep _ hu
    simp [parsePfx, h1, h2]
  · intro n rest hn hrest
    have h1 : splitOnce '!' (n ++ '!' :: rest) = some (n, rest) :=
      splitOnce_sep _ hn
    have h2 : splitOnce '@' rest = none := splitOnce_not_mem hrest
    simp [parsePfx, h1, h2]
  · intro n h hn han hh
    have h1 : splitOnce '!' (n ++ '@' :: h) = none := by
      refine splitOnce_not_mem ?_
      simp only [List.mem_append, List.mem_cons]
      rintro (hm | hm | hm)
      · exact hn hm
      · cases hm
      · exact hh hm
    have h2 : splitOnce '@' (n ++ '@' :: h) = some (n, h) :=
      splitOnce_sep _ han
    simp [parsePfx, h1, h2]
  · intro p h1 h2
    simp [parsePfx, splitOnce_not_mem h1, splitOnce_not_mem h2]

/-- Witness for `nick_user_host_decomposition` at concrete inputs. -/
theorem c9_witness :
    parsePfx ("alice".toList ++ '!' :: ("auser".toList ++ '@' :: "ahost".toList)) =
      ("alice".toList, "auser".toList, "ahost".toList) ∧
    parsePfx ("n".toList ++ '!' :: "u".toList) = ("n".toList, "u".toList, []) ∧
    parsePfx ("n".toList ++ '@' :: "h".toList) = ("n".toList, [], "h".toList) ∧
    parsePfx ("srv".toList) = ("srv".toList, [], []) :=
  ⟨nick_user_host_decomposition.1 _ _ _ (by decide) (by decide),
   nick_user_host_decomposition.2.1 _ _ (by decide) (by decide),
   nick_user_host_decomposition.2.2.1 _ _ (by decide) (by decide) (by decide),
   nick_user_host_decomposition.2.2.2.1 _ (by decide) (by decide)⟩

/-! ### Lemmas about the framer -/

theorem flushAux_fuel :
    ∀ (f : Nat) (buf : List Char), buf.length ≤ f →
      flushAux (f + 1) buf = flushAux f buf := by
  intro f
  induction f with
  | zero =>
    intro buf h
    have hb : buf = [] := List.length_eq_zero.mp (Nat.le_zero.mp h)
    subst hb
    rfl
  | succ n ih =>
    intro buf h
    cases hs : splitCRLF buf with
    | none =>
      rw [flushAux, flushAux, hs]
      rfl
    | some p =>
      have hlen : p.2.length < buf.length :=
        @splitFirst2_some_length '\r' '\n' buf p.1 p.2 (by simpa using hs)
      rw [flushAux, flushAux, hs]
      simp only [Option.elim]
      rw [ih p.2 (by omega)]

theorem flushAux_eq_flush :
    ∀ (f : Nat) (buf : List Char), buf.length ≤ f →
      flushAux f buf = flushBuffer buf := by
  have key : ∀ (k : Nat) (buf : List Char),
      flushAux (buf.length + k) buf = flushAux buf.length buf := by
    intro k
    induction k with
    | zero => intro buf; rfl
    | succ n ih =>
      intro buf
      have hstep : buf.length + (n + 1) = (buf.length + n) + 1 := rfl
      rw [hstep, flushAux_fuel (buf.length + n) buf (by omega), ih buf]
  intro f buf h
  have hf : f = buf.length + (f - buf.length) := by omega
  rw [flushBuffer, hf, key]

theorem flushBuffer_none {buf : List Char} (hs : splitCRLF buf = none) :
    flushBuffer buf = ([], [], buf) := by
  cases buf with
  | nil => rfl
  | cons c cs =>
    rw [flushBuffer]
    simp only [List.length_cons]
    rw [flushAux, hs]
    rfl

theorem flushBuffer_some {buf l r : List Char}
    (hs : splitCRLF buf = some (l, r)) :
    flushBuffer buf =
      (if pyStrip l = [] then flushBuffer r
       else
        (parse (pyStrip l) :: (flushBuffer r).1,
         pingPongs (parse (pyStrip l)) ++ (flushBuffer r).2.1,
         (flushBuffer r).2.2)) := by
  cases buf with
  | nil => simp [splitCRLF, splitFirst2] at hs
  | cons c cs =>
    have hlen : r.length < (c :: cs).length := splitFirst2_some_length hs
    have hr : r.length ≤ cs.length := by
      simp only [List.length_cons] at hlen
      omega
    rw [flushBuffer]
    simp only [List.length_cons]
    rw [flushAux, hs]
    simp only [Option.elim]
    rw [flushAux_eq_flush cs.length r hr]

theorem flush_append :
    ∀ (a b : List Char),
      flushBuffer (a ++ b) =
        ((flushBuffer a).1 ++ (flushBuffer ((flushBuffer a).2.2 ++ b)).1,
         (flushBuffer a).2.1 ++ (flushBuffer ((flushBuffer a).2.2 ++ b)).2.1,
         (flushBuffer ((flushBuffer a).2.2 ++ b)).2.2) := by
  suffices key : ∀ (n : Nat) (a : List Char), a.length ≤ n → ∀ (b : List Char),
      flushBuffer (a ++ b) =
        ((flushBuffer a).1 ++ (flushBuffer ((flushBuffer a).2.2 ++ b)).1,
         (flushBuffer a).2.1 ++ (flushBuffer ((flushBuffer a).2.2 ++ b)).2.1,
         (flushBuffer ((flushBuffer a).2.2 ++ b)).2.2) by
    exact fun a b => key a.length a le_rfl b
  intro n
  induction n with
  | zero =>
    intro a ha b
    have h0 : a = [] := List.length_eq_zero.mp (Nat.le_zero.mp ha)
    subst h0
    rfl
  | succ n ih =>
    intro a ha b
    cases hs : splitCRLF a with
    | none =>
      rw [flushBuffer_none hs]
      simp
    | some p =>
      obtain ⟨l, r⟩ := p
      have hs2 : splitCRLF (a ++ b) = some (l, r ++ b) :=
        splitFirst2_append_some b hs
      have hr : r.length ≤ n := by
        have := splitFirst2_some_length hs
        omega
      rw [flushBuffer_some hs2, flushBuffer_some hs, ih r hr b]
      by_cases hl : pyStrip l = []
      · simp only [if_pos hl]
      · simp only [if_neg hl]
        simp [List.append_assoc]

theorem flush_rem_none (buf : List Char) :
    splitCRLF ((flushBuffer buf).2.2) = none := by
  suffices key : ∀ (n : Nat) (buf : List Char), buf.length ≤ n →
      splitCRLF ((flushBuffer buf).2.2) = none from
    key buf.length buf le_rfl
  intro n
  induction n with
  | zero =>
    intro buf h
    have h0 : buf = [] := List.length_eq_zero.mp (Nat.le_zero.mp h)
    subst h0
    rfl
  | succ n ih =>
    intro buf h
    cases hs : splitCRLF buf with
    | none =>
      rw [flushBuffer_none hs]
      exact hs
    | some p =>
      obtain ⟨l, r⟩ := p
      have hr : r.length ≤ n := by
        have := splitFirst2_some_length hs
        omega
      rw [flushBuffer_some hs]
      by_cases hl : pyStrip l = []
      · rw [if_pos hl]
        exact ih r hr
      · rw [if_neg hl]
        simpa using ih r hr

theorem processFrags_flush :
    ∀ (frags : List (List Char)) (buf : List Char), splitCRLF buf = none →
      processFrags buf frags = flushBuffer (buf ++ frags.flatten) := by
  intro frags
  induction frags with
  | nil =>
    intro buf h
    simp only [processFrags, List.flatten_nil, List.append_nil]
    rw [flushBuffer_none h]
  | cons f fs ih =>
    intro buf h
    simp only [processFrags]
    rw [ih _ (flush_rem_none _)]
    have hassoc : buf ++ (f :: fs).flatten = (buf ++ f) ++ fs.flatten := by
      rw [List.flatten_cons, ← List.append_assoc]
    rw [hassoc, flush_append (buf ++ f) fs.flatten]

/-- Character-level fragment processing from an empty buffer equals one
whole-text extraction. -/
theorem processFrags_join (frags : List (List Char)) :
    processFrags [] frags = flushBuffer frags.flatten := by
  rw [processFrags_flush frags [] rfl, List.nil_append]

/-- Byte-level fragment processing is character-level processing of the
per-read decodes. -/
theorem processFragsB_eq :
    ∀ (frags : List (List Nat)) (buf : List Char),
      processFragsB buf frags = processFrags buf (frags.map utf8Decode) := by
  intro frags
  induction frags with
  | nil => intro buf; rfl
  | cons f fs ih =>
    intro buf
    simp only [processFragsB, List.map_cons, processFrags]
    rw [ih]

/-! ### Claim C1 -/

/-- Claim C1 as stated is false: extraction is not invariant under
every byte-stream partition, because `User.receive` decodes each read
on its own with `errors="replace"`.  Splitting the two-byte UTF-8
sequence of `é` across two reads decodes it to two U+FFFD replacement
characters, yielding a different message sequence than a single read of
the same byte stream. -/
theorem c1_counterexample :
    ([[0xC3], [0xA9, 0x0D, 0x0A]] : List (List Nat)).flatten =
      [0xC3, 0xA9, 0x0D, 0x0A] ∧
    (processFragsB [] [[0xC3], [0xA9, 0x0D, 0x0A]]).1 ≠
      (processFragsB [] [[0xC3, 0xA9, 0x0D, 0x0A]]).1 := by
  decide

/-- Claim C1, amended: fragmentation invariance holds for every byte
stream and every partition of it into successive reads that respects
character boundaries — one whose per-read decodes concatenate to the
decode of the whole stream, i.e. no read ends inside a multi-byte UTF-8
sequence: appending each decoded read to the connection buffer and
extracting after each append yields exactly the messages (and PONG
sends and final buffer) of decoding and extracting the whole stream in
a single read. -/
theorem fragmentation_invariance (frags : List (List Nat))
    (hb : (frags.map utf8Decode).flatten = utf8Decode frags.flatten) :
    processFragsB [] frags = flushBuffer (utf8Decode frags.flatten) := by
  rw [processFragsB_eq frags [], processFrags_join (frags.map utf8Decode), hb]

/-- Witness for `fragmentation_invariance` at a concrete
boundary-respecting partition: the multi-byte `é` is kept whole in the
first read while the CRLF pair is split across the reads. -/
theorem c1_witness :
    (([[0xC3, 0xA9, 0x0D], [0x0A, 0x46, 0x4F, 0x4F, 0x0D, 0x0A]] :
        List (List Nat)).map utf8Decode).flatten =
      utf8Decode ([[0xC3, 0xA9, 0x0D], [0x0A, 0x46, 0x4F, 0x4F, 0x0D, 0x0A]] :
        List (List Nat)).flatten ∧
    processFragsB [] [[0xC3, 0xA9, 0x0D], [0x0A, 0x46, 0x4F, 0x4F, 0x0D, 0x0A]] =
      flushBuffer (utf8Decode
        ([[0xC3, 0xA9, 0x0D], [0x0A, 0x46, 0x4F, 0x4F, 0x0D, 0x0A]] :
          List (List Nat)).flatten) :=
  ⟨(by decide),
   fragmentation_invariance
     [[0xC3, 0xA9, 0x0D], [0x0A, 0x46, 0x4F, 0x4F, 0x0D, 0x0A]] (by decide)⟩

/-! ### Claim C5 -/

/-- Claim C5: keepalive: during one buffer extraction, for every token
`t`, exactly one `PONG :t` is emitted per extracted message whose
command is `PING` with first parameter `t` (no parameter standing for
the empty token); the PING messages themselves stay in the returned
batch, where they are counted. -/
theorem ping_pong_count :
    ∀ (buf t : List Char),
      ((flushBuffer buf).2.1).count ("PONG :".toList ++ t) =
        (((flushBuffer buf).1).filter
          (fun m => decide (m.command = "PING".toList ∧ pingToken m = t))).length := by
  suffices key : ∀ (n : Nat) (buf : List Char), buf.length ≤ n →
      ∀ (t : List Char),
      ((flushBuffer buf).2.1).count ("PONG :".toList ++ t) =
        (((flushBuffer buf).1).filter
          (fun m => decide (m.command = "PING".toList ∧ pingToken m = t))).length from
    fun buf t => key buf.length buf le_rfl t
  intro n
  induction n with
  | zero =>
    intro buf h t
    have h0 : buf = [] := List.length_eq_zero.mp (Nat.le_zero.mp h)
    subst h0
    rfl
  | succ n ih =>
    intro buf h t
    cases hs : splitCRLF buf with
    | none =>
      rw [flushBuffer_none hs]
      rfl
    | some p =>
      obtain ⟨l, r⟩ := p
      have hr : r.length ≤ n := by
        have := splitFirst2_some_length hs
        omega
      rw [flushBuffer_some hs]
      by_cases hl : pyStrip l = []
      · rw [if_pos hl]
        exact ih r hr t
      · rw [if_neg hl]
        show (pingPongs (parse (pyStrip l)) ++ (flushBuffer r).2.1).count
            ("PONG :".toList ++ t) =
          ((parse (pyStrip l) :: (flushBuffer r).1).filter
            (fun m => decide (m.command = "PING".toList ∧ pingToken m = t))).length
        rw [List.count_append, List.filter_cons]
        by_cases hping : (parse (pyStrip l)).command = "PING".toList
        · by_cases htok : pingToken (parse (pyStrip l)) = t
          · have hpred : decide ((parse (pyStrip l)).command = "PING".toList ∧
                pingToken (parse (pyStrip l)) = t) = true := by
              rw [decide_eq_true_eq]
              exact ⟨hping, htok⟩
            rw [pingPongs, if_pos hping, hpred]
            simp only [if_true, List.length_cons]
            rw [ih r hr t, htok]
            have hone : List.count ("PONG :".toList ++ t)
                ["PONG :".toList ++ t] = 1 := by
              simp
            rw [hone]
            omega
          · have hpred : decide ((parse (pyStrip l)).command = "PING".toList ∧
                pingToken (parse (pyStrip l)) = t) = false := by
              rw [decide_eq_false_iff_not]
              rintro ⟨_, h2⟩
              exact htok h2
            have hne : ("PONG :".toList ++ t ==
                "PONG :".toList ++ pingToken (parse (pyStrip l))) = false := by
              rw [beq_eq_false_iff_ne]
              intro he
              exact htok (List.append_cancel_left he).symm
            have hzero : List.count ("PONG :".toList ++ t)
                ["PONG :".toList ++ pingToken (parse (pyStrip l))] = 0 := by
              simp [List.count_cons, hne, htok]
            rw [pingPongs, if_pos hping, hpred, hzero]
            simp only [Bool.false_eq_true, if_false]
            rw [ih r hr t]
            omega
        · have hpred : decide ((parse (pyStrip l)).command = "PING".toList ∧
              pingToken (parse (pyStrip l)) = t) = false := by
            rw [decide_eq_false_iff_not]
            rintro ⟨h1, _⟩
            exact hping h1
          rw [pingPongs, if_neg hping, hpred]
          simp only [Bool.false_eq_true, if_false, List.nil_append,
            List.count_nil]
          rw [ih r hr t]
          omega

/-! ### Claim C2 -/

/-- Claim C2 as stated is false: on a Connection state without a socket
(a `User` that never connected, or after `disconnect()`) whose buffer
holds no complete line, `receive` reaches `self._socket.settimeout` and
raises `AttributeError`. -/
theorem c2_counterexample :
    receive (Conn.mk false false []) .timedOut = .error .attributeError := rfl

/-- Claim C2, amended: `receive` never raises on any Connection state
that holds a socket (and on any state whatever when the buffer already
holds a complete line): buffered messages are returned without touching
the read outcome; a read timeout yields an empty batch with the
connected flag untouched; peer close (empty data) and I/O failure yield
an empty batch with connected set to false. -/
theorem receive_no_raise :
    (∀ st r, (flushBuffer st.buffer).1 ≠ [] →
      receive st r = .ok ((flushBuffer st.buffer).1, (flushBuffer st.buffer).2.1,
        { st with buffer := (flushBuffer st.buffer).2.2 })) ∧
    (∀ st r, st.hasSocket = true → (receive st r).isOk = true) ∧
    (∀ st, (flushBuffer st.buffer).1 = [] → st.hasSocket = true →
      receive st .timedOut = .ok ([], (flushBuffer st.buffer).2.1,
        { st with buffer := (flushBuffer st.buffer).2.2 })) ∧
    (∀ st, (flushBuffer st.buffer).1 = [] → st.hasSocket = true →
      receive st (.data []) = .ok ([], (flushBuffer st.buffer).2.1,
        { st with buffer := (flushBuffer st.buffer).2.2, connected := false }) ∧
      receive st .ioError = .ok ([], (flushBuffer st.buffer).2.1,
        { st with buffer := (flushBuffer st.buffer).2.2, connected := false })) := by
  refine ⟨?_, ?_, ?_, ?_⟩
  · intro st r hne
    simp only [receive]
    rw [if_neg hne]
  · intro st r hsock
    simp only [receive]
    by_cases hA : (flushBuffer st.buffer).1 = []
    · rw [if_pos hA, if_pos hsock]
      rfl
    · rw [if_neg hA]
      rfl
  · intro st hA hsock
    simp only [receive, receiveC]
    rw [if_pos hA, if_pos hsock, if_pos hA]
  · intro st hA hsock
    constructor
    · simp only [receive, receiveC]
      rw [if_pos hA, if_pos hsock, if_pos hA]
      rfl
    · simp only [receive, receiveC]
      rw [if_pos hA, if_pos hsock, if_pos hA]

/-- Witness for `receive_no_raise` at concrete states. -/
theorem c2_witness :
    receive (Conn.mk false false ("FOO\r\n".toList)) .ioError =
      .ok ([parse ("FOO".toList)], [], Conn.mk false false []) ∧
    (receive (Conn.mk true true []) .timedOut).isOk = true ∧
    receive (Conn.mk true true []) .timedOut = .ok ([], [], Conn.mk true true []) ∧
    receive (Conn.mk true true []) (.data []) =
      .ok ([], [], Conn.mk true false []) ∧
    receive (Conn.mk true true []) .ioError =
      .ok ([], [], Conn.mk true false []) := by
  refine ⟨?_, ?_, ?_, ?_, ?_⟩
  · exact (receive_no_raise.1 (Conn.mk false false ("FOO\r\n".toList)) .ioError
      (by decide)).trans (by rfl)
  · exact receive_no_raise.2.1 (Conn.mk true true []) .timedOut rfl
  · exact (receive_no_raise.2.2.1 (Conn.mk true true []) (by decide) rfl).trans
      (by rfl)
  · exact ((receive_no_raise.2.2.2 (Conn.mk true true []) (by decide) rfl).1).trans
      (by rfl)
  · exact ((receive_no_raise.2.2.2 (Conn.mk true true []) (by decide) rfl).2).trans
      (by rfl)

/-! ### Claim C3 -/

/-- Claim C3 as stated is false: the `collect` loop has no early exit on
connection close.  Here the first read reports peer close (flipping
connected to false), yet `collect` keeps looping and returns a message
delivered by a later read instead of returning immediately with the
empty list collected so far. -/
theorem c3_counterexample :
    (collect (Conn.mk true true []) 10 [0, 1, 10]
        [.data [], .data ("FOO\r\n".toList), .timedOut]).1 =
      [parse ("FOO".toList)] ∧
    (collect (Conn.mk true true []) 10 [0, 1, 10]
        [.data [], .data ("FOO\r\n".toList), .timedOut]).2.connected = false := by
  decide

/-- Claim C3, amended: `collect` keeps reading for the whole requested
duration — as long as the observed clock stays within the deadline it
performs every read (connection close included) and returns all batches
concatenated in arrival order; it never returns early on close. -/
theorem collect_drains_full_duration :
    ∀ (st : Conn) (endTime : Int) (clock : List Int) (reads : List ReadResult),
      clock.length = reads.length → (∀ t ∈ clock, 0 < endTime - t) →
      collect st endTime clock reads = runReads st reads := by
  intro st endTime clock
  induction clock generalizing st with
  | nil =>
    intro reads hlen _
    cases reads with
    | nil => rfl
    | cons r rs => simp at hlen
  | cons t ts ih =>
    intro reads hlen hbud
    cases reads with
    | nil => simp at hlen
    | cons r rs =>
      have ht : 0 < endTime - t := hbud t (by simp)
      simp only [collect, runReads]
      rw [if_neg (by omega)]
      rw [ih (receiveC st r).2.2 rs (by simpa using hlen)
        (fun x hx => hbud x (by simp [hx]))]

/-- Witness for `collect_drains_full_duration` at a concrete trace. -/
theorem c3_witness :
    collect (Conn.mk true true []) 100 [0, 1, 2]
        [.data ("A\r\n".toList), .data [], .data ("B\r\n".toList)] =
      runReads (Conn.mk true true [])
        [.data ("A\r\n".toList), .data [], .data ("B\r\n".toList)] :=
  collect_drains_full_duration (Conn.mk true true []) 100 [0, 1, 2]
    [.data ("A\r\n".toList), .data [], .data ("B\r\n".toList)]
    (by decide) (by decide)

/-! ### Lemmas about the inner batch scan -/

theorem scanBatch_some {cmds : List (List Char)} :
    ∀ {b tk : List Message} {m : Message},
      scanBatch cmds b = (tk, some m) →
      tk ≠ [] ∧ tk.getLast? = some m ∧ m.command ∈ cmds ∧
        ∀ x ∈ tk.dropLast, x.command ∉ cmds := by
  intro b
  induction b with
  | nil =>
    intro tk m h
    simp [scanBatch] at h
  | cons a as ih =>
    intro tk m h
    simp only [scanBatch] at h
    by_cases hc : a.command ∈ cmds
    · rw [if_pos hc] at h
      simp only [Prod.mk.injEq, Option.some.injEq] at h
      obtain ⟨rfl, rfl⟩ := h
      exact ⟨(by simp), (by simp), hc, (by simp)⟩
    · rw [if_neg hc] at h
      cases hA : scanBatch cmds as with
      | mk tk2 res =>
        simp only [hA, Prod.mk.injEq] at h
        obtain ⟨rfl, rfl⟩ := h
        obtain ⟨hne, hlast, hmem, hdrop⟩ := ih hA
        cases tk2 with
        | nil => exact absurd rfl hne
        | cons y ys =>
          refine ⟨(by simp), ?_, hmem, ?_⟩
          · rw [List.getLast?_cons_cons]
            exact hlast
          · intro x hx
            rw [List.dropLast_cons_of_ne_nil (by simp)] at hx
            rcases List.mem_cons.mp hx with rfl | hx2
            · exact hc
            · exact hdrop x hx2

theorem scanBatch_none {cmds : List (List Char)} :
    ∀ {b tk : List Message}, scanBatch cmds b = (tk, none) →
      tk = b ∧ ∀ x ∈ b, x.command ∉ cmds := by
  intro b
  induction b with
  | nil =>
    intro tk h
    simp only [scanBatch, Prod.mk.injEq] at h
    obtain ⟨rfl, -⟩ := h
    exact ⟨rfl, (by simp)⟩
  | cons a as ih =>
    intro tk h
    simp only [scanBatch] at h
    by_cases hc : a.command ∈ cmds
    · rw [if_pos hc] at h
      simp only [Prod.mk.injEq] at h
      exact absurd h.2 (by simp)
    · rw [if_neg hc] at h
      cases hA : scanBatch cmds as with
      | mk tk2 res =>
        simp only [hA, Prod.mk.injEq] at h
        obtain ⟨rfl, rfl⟩ := h
        obtain ⟨rfl, hall⟩ := ih hA
        refine ⟨rfl, ?_⟩
        intro x hx
        rcases List.mem_cons.mp hx with rfl | hx2
        · exact hc
        · exact hall x hx2

theorem scanBatch_prefix {cmds : List (List Char)} :
    ∀ {b tk : List Message} {res : Option Message},
      scanBatch cmds b = (tk, res) → ∃ suf, b = tk ++ suf := by
  intro b
  induction b with
  | nil =>
    intro tk res h
    simp only [scanBatch, Prod.mk.injEq] at h
    obtain ⟨rfl, -⟩ := h
    exact ⟨[], rfl⟩
  | cons a as ih =>
    intro tk res h
    simp only [scanBatch] at h
    by_cases hc : a.command ∈ cmds
    · rw [if_pos hc] at h
      simp only [Prod.mk.injEq] at h
      obtain ⟨rfl, -⟩ := h
      exact ⟨as, rfl⟩
    · rw [if_neg hc] at h
      cases hA : scanBatch cmds as with
      | mk tk2 res2 =>
        simp only [hA, Prod.mk.injEq] at h
        obtain ⟨rfl, -⟩ := h
        obtain ⟨suf, hsuf⟩ := ih hA
        exact ⟨suf, by rw [List.cons_append, ← hsuf]⟩

/-! ### Claim C4 -/

/-- Claim C4: the `receive_until` contract: whatever oracle trace is
observed, when a match is returned it is the last element of the
returned list, its command is in the target set, and every earlier
returned message has a command outside the set (so the match is the
first matching message in the returned list); when no match is
returned, no returned message has a command in the set. -/
theorem receiveUntil_contract :
    ∀ (cmds : List (List Char)) (st : Conn) (endTime : Int)
      (clock : List Int) (reads : List ReadResult)
      (msgs : List Message) (res : Option Message) (st' : Conn),
      receiveUntil cmds st endTime clock reads = (msgs, res, st') →
      (∀ m, res = some m → m.command ∈ cmds ∧ msgs.getLast? = some m ∧
        ∀ x ∈ msgs.dropLast, x.command ∉ cmds) ∧
      (res = none → ∀ x ∈ msgs, x.command ∉ cmds) := by
  intro cmds st endTime clock
  induction clock generalizing st with
  | nil =>
    intro reads msgs res st' h
    have h0 : receiveUntil cmds st endTime [] reads = ([], none, st) := by
      cases reads <;> rfl
    rw [h0] at h
    simp only [Prod.mk.injEq] at h
    obtain ⟨rfl, rfl, rfl⟩ := h
    refine ⟨fun m hm => ?_, fun _ x hx => ?_⟩
    · cases hm
    · simp at hx
  | cons t ts ih =>
    intro reads msgs res st' h
    cases reads with
    | nil =>
      have h0 : receiveUntil cmds st endTime (t :: ts) [] = ([], none, st) := rfl
      rw [h0] at h
      simp only [Prod.mk.injEq] at h
      obtain ⟨rfl, rfl, rfl⟩ := h
      refine ⟨fun m hm => ?_, fun _ x hx => ?_⟩
      · cases hm
      · simp at hx
    | cons r rs =>
      simp only [receiveUntil] at h
      by_cases hb : endTime - t ≤ 0
      · rw [if_pos hb] at h
        simp only [Prod.mk.injEq] at h
        obtain ⟨rfl, rfl, rfl⟩ := h
        refine ⟨fun m hm => ?_, fun _ x hx => ?_⟩
        · cases hm
        · simp at hx
      · rw [if_neg hb] at h
        cases hscan : scanBatch cmds (receiveC st r).1 with
        | mk taken resb =>
          cases resb with
          | some m0 =>
            simp only [hscan, Prod.mk.injEq] at h
            obtain ⟨rfl, rfl, rfl⟩ := h
            obtain ⟨hne, hlast, hmem, hdrop⟩ := scanBatch_some hscan
            refine ⟨fun m hm => ?_, fun hnone => ?_⟩
            · injection hm with hm
              subst hm
              exact ⟨hmem, hlast, hdrop⟩
            · cases hnone
          | none =>
            cases hB : receiveUntil cmds (receiveC st r).2.2 endTime ts rs with
            | mk msgs2 rest2 =>
              cases rest2 with
              | mk res2 st2 =>
                simp only [hscan, hB, Prod.mk.injEq] at h
                obtain ⟨rfl, rfl, rfl⟩ := h
                obtain ⟨htk, hall⟩ := scanBatch_none hscan
                obtain ⟨ihsome, ihnone⟩ :=
                  ih (receiveC st r).2.2 rs msgs2 res2 st2 hB
                refine ⟨fun m hm => ?_, fun hnone x hx => ?_⟩
                · obtain ⟨hmem2, hlast2, hdrop2⟩ := ihsome m hm
                  have hne2 : msgs2 ≠ [] := by
                    intro h0
                    rw [h0] at hlast2
                    cases hlast2
                  refine ⟨hmem2, ?_, ?_⟩
                  · rw [List.getLast?_append, hlast2]
                    rfl
                  · intro x hx
                    rw [List.dropLast_append_of_ne_nil taken hne2] at hx
                    rcases List.mem_append.mp hx with hx1 | hx2
                    · exact hall x (htk ▸ hx1)
                    · exact hdrop2 x hx2
                · rcases List.mem_append.mp hx with hx1 | hx2
                  · exact hall x (htk ▸ hx1)
                  · exact ihnone hnone x hx2

/-- Witness for `receiveUntil_contract` at a concrete trace. -/
theorem c4_witness :
    (parse (":s 001 n".toList)).command ∈ [("001".toList)] ∧
    [parse (":s 001 n".toList)].getLast? = some (parse (":s 001 n".toList)) ∧
    ∀ x ∈ [parse (":s 001 n".toList)].dropLast, x.command ∉ [("001".toList)] :=
  (receiveUntil_contract [("001".toList)] (Conn.mk true true []) 10 [0]
    [.data (":s 001 n\r\n".toList)] [parse (":s 001 n".toList)]
    (some (parse (":s 001 n".toList))) (Conn.mk true true [])
    (by decide)).1 (parse (":s 001 n".toList)) rfl

/-! ### Claim C10 -/

/-- `receive` always leaves a buffer without any complete CRLF line. -/
theorem receiveC_rem_none (st : Conn) (r : ReadResult) :
    splitCRLF ((receiveC st r).2.2).buffer = none := by
  cases r with
  | timedOut =>
    simp only [receiveC]
    by_cases hA : (flushBuffer st.buffer).1 = []
    · simp only [if_pos hA]
      exact flush_rem_none st.buffer
    · simp only [if_neg hA]
      exact flush_rem_none st.buffer
  | ioError =>
    simp only [receiveC]
    by_cases hA : (flushBuffer st.buffer).1 = []
    · simp only [if_pos hA]
      exact flush_rem_none st.buffer
    · simp only [if_neg hA]
      exact flush_rem_none st.buffer
  | data bytes =>
    simp only [receiveC]
    by_cases hA : (flushBuffer st.buffer).1 = []
    · simp only [if_pos hA]
      by_cases hbe : bytes = []
      · simp only [if_pos hbe]
        exact flush_rem_none st.buffer
      · simp only [if_neg hbe]
        exact flush_rem_none _
    · simp only [if_neg hA]
      exact flush_rem_none st.buffer

/-- Claim C10: post-match loss in `receive_until`: when the first batch
scan finds a match, the call returns only the batch prefix up to and
including the match; the batch decomposes as that prefix plus a
(possibly non-empty) dropped suffix, and the returned connection buffer
holds no complete line, so the dropped suffix survives nowhere. -/
theorem post_match_loss :
    ∀ (cmds : List (List Char)) (st : Conn) (endTime t : Int)
      (clock : List Int) (reads : List ReadResult) (r : ReadResult)
      (taken : List Message) (m : Message),
      0 < endTime - t →
      scanBatch cmds (receiveC st r).1 = (taken, some m) →
      receiveUntil cmds st endTime (t :: clock) (r :: reads) =
        (taken, some m, (receiveC st r).2.2) ∧
      (∃ dropped, (receiveC st r).1 = taken ++ dropped) ∧
      splitCRLF ((receiveC st r).2.2).buffer = none := by
  intro cmds st endTime t clock reads r taken m hbud hscan
  refine ⟨?_, scanBatch_prefix hscan, receiveC_rem_none st r⟩
  simp only [receiveUntil]
  rw [if_neg (by omega), hscan]

/-- Witness for `post_match_loss` at a concrete trace: the batch holds
a `001` followed by a `FOO`, and only the `001` is returned. -/
theorem c10_witness :
    receiveUntil [("001".toList)] (Conn.mk true true []) 10 [0]
        [ReadResult.data (":s 001 a\r\nFOO\r\n".toList)] =
      ([parse (":s 001 a".toList)], some (parse (":s 001 a".toList)),
        (receiveC (Conn.mk true true [])
          (ReadResult.data (":s 001 a\r\nFOO\r\n".toList))).2.2) ∧
    (∃ dropped,
      (receiveC (Conn.mk true true [])
          (ReadResult.data (":s 001 a\r\nFOO\r\n".toList))).1 =
        [parse (":s 001 a".toList)] ++ dropped) ∧
    splitCRLF ((receiveC (Conn.mk true true [])
        (ReadResult.data (":s 001 a\r\nFOO\r\n".toList))).2.2).buffer = none :=
  post_match_loss [("001".toList)] (Conn.mk true true []) 10 0 [] []
    (ReadResult.data (":s 001 a\r\nFOO\r\n".toList))
    [parse (":s 001 a".toList)] (parse (":s 001 a".toList))
    (by decide) (by decide)

end IrcTester
